import Mathlib

/-!
# Verification of `nima_io.read` (imgread)

Shallow embedding, in Lean 4, of the algorithmic parts of
`src/nima_io/read.py`, together with theorems settling the claims about
the module's specification.

Conventions used throughout:
* Python lists become Lean `List`s; Python tuples of ints become `List Nat`
  (resp. `List Int`) with first component accessed via `headD`.
* Python functions that may raise become `Option`/`Except`-valued
  functions; the exceptional result models the raised exception.
* Python dicts (insertion ordered, unique keys) become association lists.
* NumPy 2-D arrays become `List (List Int)`; `np.array_equal` becomes
  list equality (which compares both shape and content).
-/

namespace NimaIO

/-! ## Index enumerator: `first_nonzero_reverse` and `next_tuple` -/

/-- Helper scanning a list from its head for the first nonzero entry,
returning its 0-based index.  Applied to `llist.reverse` it mirrors the
Python loop `for i in range(-1, -len(llist) - 1, -1)` since
`llist[-(k+1)] == llist.reverse[k]`. -/
def fnrAux : List Int → Option Nat
  | [] => none
  | x :: xs => if x ≠ 0 then some 0 else (fnrAux xs).map (· + 1)

/-- Embedding of `first_nonzero_reverse` (read.py lines 852-876): return the
negative index `i ∈ [-len, -1]` of the last nonzero element, scanning from
the end; `none` when every element is zero. -/
def first_nonzero_reverse (llist : List Int) : Option Int :=
  (fnrAux llist.reverse).map (fun k => -((k : Int) + 1))

/-- Embedding of `next_tuple` (read.py lines 1299-1355).  `none` models a
raised `StopExceptionError`; `some l` models returning the (mutated) list.
With `s = true` the last element is incremented.  With `s = false` the
rightmost nonzero element (Python negative index `idx`, here converted to
the 0-based position `p = len + idx`) is zeroed and its left neighbour
incremented; when `idx = -len` the function raises; when the list is all
zero (`idx is None`) the Python code falls through and returns the list
unchanged. -/
def next_tuple (llist : List Int) (s : Bool) : Option (List Int) :=
  if llist.length = 0 then none
  else if s then
    some (llist.set (llist.length - 1) (llist.getD (llist.length - 1) 0 + 1))
  else
    match first_nonzero_reverse llist with
    | some idx =>
      if idx = -(llist.length : Int) then none
      else
        let p := ((llist.length : Int) + idx).toNat
        let l1 := llist.set p 0
        some (l1.set (p - 1) (l1.getD (p - 1) 0 + 1))
    | none => some llist

end NimaIO

namespace NimaIO

lemma fnrAux_none_iff (l : List Int) : fnrAux l = none ↔ ∀ x ∈ l, x = 0 := by
  induction l with
  | nil => simp [fnrAux]
  | cons x xs ih =>
    by_cases hx : x = 0
    · simp [fnrAux, hx, ih]
    · simp [fnrAux, hx]

lemma fnrAux_some_of (l : List Int) (k : Nat) (hk : k < l.length)
    (h0 : ∀ i, i < k → l.getD i 0 = 0) (hne : l.getD k 0 ≠ 0) :
    fnrAux l = some k := by
  induction l generalizing k with
  | nil => simp at hk
  | cons x xs ih =>
    cases k with
    | zero =>
      have hx : x ≠ 0 := by simpa using hne
      simp [fnrAux, hx]
    | succ k =>
      have hx : x = 0 := by simpa using h0 0 (Nat.succ_pos k)
      have hrec : fnrAux xs = some k := by
        refine ih k (by simpa using hk) (fun i hi => ?_) (by simpa using hne)
        simpa using h0 (i + 1) (by omega)
      simp [fnrAux, hx, hrec]

lemma getD_reverse (l : List Int) (i : Nat) (h : i < l.length) :
    l.reverse.getD i 0 = l.getD (l.length - 1 - i) 0 := by
  rw [List.getD_eq_getElem l.reverse 0 (by simpa using h),
      List.getD_eq_getElem l 0 (by omega)]
  exact List.getElem_reverse ..

lemma getD_mem_drop (l : List Int) (j p : Nat) (h1 : p + 1 ≤ j) (h2 : j < l.length) :
    l.getD j 0 ∈ l.drop (p + 1) := by
  have h3 : j - (p + 1) < (l.drop (p + 1)).length := by simp; omega
  have h5 : (p + 1) + (j - (p + 1)) < l.length := by omega
  have hdrop : (l.drop (p + 1)).get ⟨j - (p + 1), h3⟩ =
      l.get ⟨(p + 1) + (j - (p + 1)), h5⟩ := by
    simp only [List.get_eq_getElem]
    exact List.getElem_drop l
  have h4 : l.get ⟨(p + 1) + (j - (p + 1)), h5⟩ = l.get ⟨j, h2⟩ := by
    simp only [List.get_eq_getElem]
    congr 1
    omega
  have hmem : l.get ⟨j, h2⟩ ∈ l.drop (p + 1) := by
    rw [← h4, ← hdrop]
    exact (l.drop (p + 1)).get_mem _ _
  rw [List.getD_eq_getElem l 0 h2]
  simpa using hmem

lemma fnr_of_all_zero (l : List Int) (h : ∀ x ∈ l, x = 0) :
    first_nonzero_reverse l = none := by
  have : fnrAux l.reverse = none := (fnrAux_none_iff _).mpr (by simpa using h)
  simp [first_nonzero_reverse, this]

lemma fnr_of_rightmost (l : List Int) (p : Nat) (hp : p < l.length)
    (hnz : l.getD p 0 ≠ 0) (hzr : ∀ x ∈ l.drop (p + 1), x = 0) :
    first_nonzero_reverse l = some ((p : Int) - (l.length : Int)) := by
  have hk : l.length - 1 - p < l.reverse.length := by simp; omega
  have h0 : ∀ i, i < l.length - 1 - p → l.reverse.getD i 0 = 0 := by
    intro i hi
    rw [getD_reverse l i (by omega)]
    exact hzr _ (getD_mem_drop l (l.length - 1 - i) p (by omega) (by omega))
  have hne : l.reverse.getD (l.length - 1 - p) 0 ≠ 0 := by
    rw [getD_reverse l _ (by omega)]
    have : l.length - 1 - (l.length - 1 - p) = p := by omega
    rw [this]; exact hnz
  have hfa := fnrAux_some_of l.reverse (l.length - 1 - p) hk h0 hne
  simp [first_nonzero_reverse, hfa]
  omega

/-- C2 amended: with `advance_mode = false`, if the only nonzero element is the
first one, `next_tuple` signals termination; if the list is all zero it
returns the list unchanged (it does NOT signal termination); otherwise it
zeros the rightmost nonzero element and increments the element to its left.
The spec's concrete carry examples hold. -/
theorem next_tuple_false_behavior :
    next_tuple [0, 0, 2] false = some [0, 1, 0] ∧
    next_tuple [0, 1, 2] false = some [0, 2, 0] ∧
    next_tuple [2, 0, 0] false = none ∧
    (∀ l : List Int, l ≠ [] → (∀ x ∈ l, x = 0) → next_tuple l false = some l) ∧
    (∀ (l : List Int) (p : Nat), (∀ x ∈ l, 0 ≤ x) → p < l.length →
      l.getD p 0 ≠ 0 → (∀ x ∈ l.drop (p + 1), x = 0) →
      (p = 0 → next_tuple l false = none) ∧
      (0 < p → next_tuple l false =
        some ((l.set p 0).set (p - 1) (l.getD (p - 1) 0 + 1)))) := by
  refine ⟨by decide, by decide, by decide, ?_, ?_⟩
  · intro l hl hz
    have hlen : l.length ≠ 0 := by simpa using (List.length_pos.mpr hl).ne'
    simp [next_tuple, hlen, fnr_of_all_zero l hz]
  · intro l p hnn hp hnz hzr
    have hlen : l.length ≠ 0 := by omega
    have hfnr := fnr_of_rightmost l p hp hnz hzr
    constructor
    · intro hp0
      subst hp0
      simp [next_tuple, hlen, hfnr]
    · intro hppos
      have hne : ((p : Int) - (l.length : Int)) ≠ -(l.length : Int) := by omega
      have htn : (((l.length : Int) + ((p : Int) - (l.length : Int)))).toNat = p := by omega
      simp only [next_tuple, hlen, if_false, Bool.false_eq_true, hfnr, hne,
        if_neg, ite_false]
      rw [htn]
      congr 1
      have hgetD : (l.set p 0).getD (p - 1) 0 = l.getD (p - 1) 0 := by
        rw [List.getD_eq_getElem _ 0 (by simpa using by omega : p - 1 < (l.set p 0).length),
            List.getD_eq_getElem l 0 (by omega)]
        exact List.getElem_set_ne (by omega) ..
      rw [hgetD]

end NimaIO

namespace NimaIO

/-- C2 counterexample: for the all-zero list `[0, 0, 0]`, the claim says
`next_tuple` signals termination (produces no next tuple); the code instead
returns the list unchanged. -/
theorem next_tuple_allzero_cx :
    next_tuple [0, 0, 0] false = some [0, 0, 0] ∧
    next_tuple [0, 0, 0] false ≠ none := by decide

/-- Witness for `next_tuple_false_behavior` at `l = [0, 0, 2]`, `p = 2`. -/
theorem next_tuple_false_behavior_witness :
    ((2 : Nat) = 0 → next_tuple [0, 0, 2] false = none) ∧
    (0 < 2 → next_tuple [0, 0, 2] false =
      some ((([0, 0, 2] : List Int).set 2 0).set 1
        (([0, 0, 2] : List Int).getD 1 0 + 1))) :=
  next_tuple_false_behavior.2.2.2.2 [0, 0, 2] 2 (by decide) (by decide)
    (by decide) (by decide)

end NimaIO

namespace NimaIO

/-! ## Value grouper: the tidy-up step of `get_allvalues_grouped`
(read.py lines 1397-1423), acting on the collected list `res` of
`(IndexTuple, value)` pairs.  Python `t[0]` becomes `headD 0`. -/

/-- First components of the index tuples, in enumeration order. -/
def firstComps {V : Type} (res : List (List Nat × V)) : List Nat :=
  res.map (fun p => p.1.headD 0)

/-- Keys of `collections.defaultdict` in insertion order (first occurrence). -/
def insKeys (l : List Nat) : List Nat :=
  l.foldl (fun acc k => if k ∈ acc then acc else acc ++ [k]) []

/-- `grouped_res[k]`: the values of all pairs whose first index component is
`k`, in enumeration order. -/
def groupVals {V : Type} (res : List (List Nat × V)) (k : Nat) : List V :=
  (res.filter (fun p => p.1.headD 0 == k)).map Prod.snd

/-- `max(grouped_res.keys())`. -/
def maxKey {V : Type} (res : List (List Nat × V)) : Nat :=
  (insKeys (firstComps res)).foldl max 0

/-- `new_res`: one `((k, len(v) - 1), v[-1])` pair per group whose values are
all identical (Python appends a 2-tuple index regardless of the arity). -/
def stepTwo {V : Type} [DecidableEq V] (res : List (List Nat × V)) :
    List (List Nat × V) :=
  (insKeys (firstComps res)).filterMap (fun k =>
    match groupVals res k with
    | [] => none
    | v0 :: vs =>
      if (v0 :: vs).count v0 = (v0 :: vs).length then
        some ([k, (v0 :: vs).length - 1], (v0 :: vs).getLastD v0)
      else none)

/-- Embedding of the tidy-up block of `get_allvalues_grouped`
(read.py lines 1399-1423):
1. when more than one pair was collected and all values are identical,
   collapse to the single last pair;
2. else, when the index tuples have at least two components, group by first
   component and replace `res` by `new_res` when the latter is non-empty;
3. then, when every group's value list equals the max-key group's, keep only
   the last `len(last group)` pairs (the Python `for ... else` idiom with the
   leaked loop variable `v`). -/
def tidy_values {V : Type} [DecidableEq V] :
    List (List Nat × V) → List (List Nat × V)
  | [] => []
  | [p] => [p]
  | p0 :: p1 :: rest =>
    let res := p0 :: p1 :: rest
    if (res.map Prod.snd).count p0.2 = res.length then
      [res.getLastD p0]
    else if 2 ≤ p0.1.length then
      let ks := insKeys (firstComps res)
      let newRes := stepTwo res
      let res1 := if newRes.isEmpty then res else newRes
      if ks.all (fun k => groupVals res k == groupVals res (maxKey res)) then
        res1.drop (res1.length - (groupVals res (ks.getLastD 0)).length)
      else res1
    else res

end NimaIO

namespace NimaIO

lemma getLastD_mem {α : Type} (l : List α) (d : α) (h : l ≠ []) :
    l.getLastD d ∈ l := by
  rw [List.getLastD_eq_getLast?, List.getLast?_eq_getLast l h]
  exact List.getLast_mem h

lemma getLast?_eq_getLastD {α : Type} (l : List α) (d : α) (h : l ≠ []) :
    l.getLast? = some (l.getLastD d) := by
  rw [List.getLastD_eq_getLast?, List.getLast?_eq_getLast l h]
  rfl

lemma mem_foldl_ins (l : List Nat) (acc : List Nat) (k : Nat) :
    k ∈ l.foldl (fun acc k => if k ∈ acc then acc else acc ++ [k]) acc ↔
      k ∈ acc ∨ k ∈ l := by
  induction l generalizing acc with
  | nil => simp
  | cons a l ih =>
    rw [List.foldl_cons, ih]
    by_cases h : a ∈ acc
    · rw [if_pos h]
      constructor
      · rintro (hk | hk) <;> simp [hk]
      · rintro (hk | hk)
        · exact Or.inl hk
        · rcases List.mem_cons.mp hk with rfl | hk
          · exact Or.inl h
          · exact Or.inr hk
    · rw [if_neg h]
      simp [List.mem_append, or_assoc]

lemma mem_insKeys (l : List Nat) (k : Nat) : k ∈ insKeys l ↔ k ∈ l := by
  simpa [insKeys] using mem_foldl_ins l [] k

lemma insKeys_ne_nil (l : List Nat) (h : l ≠ []) : insKeys l ≠ [] := by
  cases l with
  | nil => exact absurd rfl h
  | cons a t =>
    exact List.ne_nil_of_mem ((mem_insKeys _ a).mpr (List.mem_cons_self a t))

lemma snd_mem_groupVals {V : Type} [DecidableEq V]
    (res : List (List Nat × V)) (p : List Nat × V) (hp : p ∈ res) :
    p.2 ∈ groupVals res (p.1.headD 0) := by
  unfold groupVals
  exact List.mem_map_of_mem Prod.snd (List.mem_filter.mpr ⟨hp, by simp⟩)

lemma groupVals_ne_nil {V : Type} [DecidableEq V]
    (res : List (List Nat × V)) (k : Nat) (h : k ∈ firstComps res) :
    groupVals res k ≠ [] := by
  rw [firstComps, List.mem_map] at h
  obtain ⟨p, hp, hk⟩ := h
  subst hk
  exact List.ne_nil_of_mem (snd_mem_groupVals res p hp)

/-- C7: if the grouper collected more than one pair and every value is
identical, the collapsed result is exactly one pair, namely the last
enumerated one, whose value equals every original value. -/
theorem grouped_all_equal_collapse {V : Type} [DecidableEq V]
    (res : List (List Nat × V)) (v : V)
    (hlen : 1 < res.length) (hv : ∀ p ∈ res, p.2 = v) :
    ∃ q, res.getLast? = some q ∧ tidy_values res = [q] ∧ q.2 = v := by
  rcases res with _ | ⟨p0, _ | ⟨p1, rest⟩⟩
  · simp at hlen
  · simp at hlen
  · have hcnt : ((p0 :: p1 :: rest).map Prod.snd).count p0.2 =
        (p0 :: p1 :: rest).length := by
      have : ((p0 :: p1 :: rest).map Prod.snd).count p0.2 =
          ((p0 :: p1 :: rest).map Prod.snd).length := by
        rw [List.count_eq_length]
        intro b hb
        rw [List.mem_map] at hb
        obtain ⟨p, hp, rfl⟩ := hb
        rw [hv p hp, hv p0 (by simp)]
      simpa using this
    refine ⟨(p0 :: p1 :: rest).getLastD p0, ?_, ?_, ?_⟩
    · exact getLast?_eq_getLastD _ _ (by simp)
    · simp only [tidy_values]
      rw [if_pos hcnt]
    · exact hv _ (getLastD_mem _ _ (by simp))

/-- Witness for `grouped_all_equal_collapse` on a two-pair enumeration with
identical values. -/
theorem grouped_all_equal_collapse_witness :
    ∃ q, ([([0], (5 : Int)), ([1], 5)] : List (List Nat × Int)).getLast? = some q ∧
      tidy_values [([0], (5 : Int)), ([1], 5)] = [q] ∧ q.2 = 5 :=
  grouped_all_equal_collapse [([0], (5 : Int)), ([1], 5)] 5 (by decide) (by decide)

end NimaIO

namespace NimaIO

/-- The Python `for _, v in grouped_res.items(): if v != grouped_res[max_key]:
break / else: ...` loop completes without `break` exactly when every group's
value list equals the max-key group's. -/
def allGroupsMax {V : Type} [DecidableEq V] (res : List (List Nat × V)) : Bool :=
  (insKeys (firstComps res)).all
    (fun k => groupVals res k == groupVals res (maxKey res))

/-- C4 counterexample: groups `0 ↦ [5,5]`, `1 ↦ [5,5]`, `2 ↦ [5,6]`; groups 0
and 1 only partially match the max-key group, yet the result is NOT the full
enumeration: step 2 already replaced it by the uniform groups' representative
pairs. -/
theorem grouped_step3_cx :
    tidy_values [([0, 0], (5 : Int)), ([0, 1], 5), ([1, 0], 5), ([1, 1], 5),
        ([2, 0], 5), ([2, 1], 6)] =
      [([0, 1], 5), ([1, 1], 5)] ∧
    tidy_values [([0, 0], (5 : Int)), ([0, 1], 5), ([1, 0], 5), ([1, 1], 5),
        ([2, 0], 5), ([2, 1], 6)] ≠
      [([0, 0], (5 : Int)), ([0, 1], 5), ([1, 0], 5), ([1, 1], 5),
        ([2, 0], 5), ([2, 1], 6)] := by decide

/-- C4 amended: in the step-3 collapse of the value grouper (reached when
more than one pair was collected, the values are not all identical, and the
index tuples have at least two components): if every group's value list, as
originally collected, equals the max-key group's, the result collapses to
the last `len(max-key group)` pairs of the full enumeration (step 2 produced
nothing in this situation); otherwise no step-3 collapse happens and the
result is the step-2 output — the uniform groups' representative pairs when
at least one group is uniform, else the full enumeration. -/
theorem grouped_step3_behavior {V : Type} [DecidableEq V]
    (p0 p1 : List Nat × V) (rest : List (List Nat × V))
    (hcnt : ¬ ((p0 :: p1 :: rest).map Prod.snd).count p0.2 =
      (p0 :: p1 :: rest).length)
    (hlen2 : 2 ≤ p0.1.length) :
    (allGroupsMax (p0 :: p1 :: rest) = true →
      stepTwo (p0 :: p1 :: rest) = [] ∧
      tidy_values (p0 :: p1 :: rest) =
        (p0 :: p1 :: rest).drop ((p0 :: p1 :: rest).length -
          (groupVals (p0 :: p1 :: rest) (maxKey (p0 :: p1 :: rest))).length)) ∧
    (allGroupsMax (p0 :: p1 :: rest) = false →
      tidy_values (p0 :: p1 :: rest) =
        if (stepTwo (p0 :: p1 :: rest)).isEmpty then p0 :: p1 :: rest
        else stepTwo (p0 :: p1 :: rest)) := by
  constructor
  · intro hall
    unfold allGroupsMax at hall
    have hks : insKeys (firstComps (p0 :: p1 :: rest)) ≠ [] :=
      insKeys_ne_nil _ (by simp [firstComps])
    have hgmax : ∀ k ∈ insKeys (firstComps (p0 :: p1 :: rest)),
        groupVals (p0 :: p1 :: rest) k =
          groupVals (p0 :: p1 :: rest) (maxKey (p0 :: p1 :: rest)) := by
      intro k hk
      exact eq_of_beq (List.all_eq_true.mp hall k hk)
    have hstep : stepTwo (p0 :: p1 :: rest) = [] := by
      rw [stepTwo, List.filterMap_eq_nil_iff]
      intro k hk
      cases hgv : groupVals (p0 :: p1 :: rest) k with
      | nil => rfl
      | cons v0 vs =>
        show (if (v0 :: vs).count v0 = (v0 :: vs).length
            then some (([k, (v0 :: vs).length - 1], (v0 :: vs).getLastD v0))
            else none) = none
        rw [if_neg]
        intro hcount
        have huniform : ∀ b ∈ v0 :: vs, v0 = b := List.count_eq_length.mp hcount
        have hmax : groupVals (p0 :: p1 :: rest) (maxKey (p0 :: p1 :: rest)) =
            v0 :: vs := by rw [← hgmax k hk, hgv]
        have hallv : ∀ p ∈ p0 :: p1 :: rest, p.2 = v0 := by
          intro p hp
          have hmem := snd_mem_groupVals (p0 :: p1 :: rest) p hp
          have hkp : p.1.headD 0 ∈ insKeys (firstComps (p0 :: p1 :: rest)) :=
            (mem_insKeys _ _).mpr (List.mem_map_of_mem _ hp)
          rw [hgmax _ hkp, hmax] at hmem
          exact (huniform _ hmem).symm
        apply hcnt
        have hforall : ∀ b ∈ (p0 :: p1 :: rest).map Prod.snd, p0.2 = b := by
          intro b hb
          rw [List.mem_map] at hb
          obtain ⟨p, hp, rfl⟩ := hb
          rw [hallv p hp, hallv p0 (by simp)]
        have := List.count_eq_length.mpr hforall
        simpa using this
    refine ⟨hstep, ?_⟩
    simp only [tidy_values]
    rw [if_neg hcnt, if_pos hlen2, hstep]
    rw [if_pos hall]
    simp only [List.isEmpty_nil, if_true]
    have hlast : (insKeys (firstComps (p0 :: p1 :: rest))).getLastD 0 ∈
        insKeys (firstComps (p0 :: p1 :: rest)) := getLastD_mem _ _ hks
    rw [hgmax _ hlast]
  · intro hall
    unfold allGroupsMax at hall
    simp only [tidy_values]
    rw [if_neg hcnt, if_pos hlen2]
    rw [if_neg (ne_true_of_eq_false hall)]

/-- Witness for `grouped_step3_behavior`: all-groups-equal case, groups
`0 ↦ [5,6]`, `1 ↦ [5,6]`. -/
theorem grouped_step3_behavior_witness :
    stepTwo [([0, 0], (5 : Int)), ([0, 1], 6), ([1, 0], 5), ([1, 1], 6)] = [] ∧
    tidy_values [([0, 0], (5 : Int)), ([0, 1], 6), ([1, 0], 5), ([1, 1], 6)] =
      ([([0, 0], (5 : Int)), ([0, 1], 6), ([1, 0], 5), ([1, 1], 6)]).drop
        (([([0, 0], (5 : Int)), ([0, 1], 6), ([1, 0], 5), ([1, 1], 6)]).length -
          (groupVals [([0, 0], (5 : Int)), ([0, 1], 6), ([1, 0], 5), ([1, 1], 6)]
            (maxKey [([0, 0], (5 : Int)), ([0, 1], 6), ([1, 0], 5),
              ([1, 1], 6)])).length) :=
  (grouped_step3_behavior ([0, 0], (5 : Int)) ([0, 1], 6) [([1, 0], 5), ([1, 1], 6)]
    (by decide) (by decide)).1 (by decide)

end NimaIO

namespace NimaIO

/-! ## Numeric conversion: `convert_java_numeric_field`
(read.py lines 1215-1250).  The Python function stringifies its argument,
so a non-`None` input is modelled by the string Python's `str()` produces
for it; `None` is modelled by `none`.  Python `int(s)` / `float(s)` are
modelled for optionally signed decimal literals (the forms the metadata
strings take); `float` results are represented exactly as rationals, which
is faithful to the string round-trip the code performs. -/

/-- Value of a nonempty all-digit string; `none` otherwise.
Models the digit-string core accepted by Python `int()`. -/
def digitsToNat? (s : List Char) : Option Nat :=
  if s ≠ [] ∧ s.all (·.isDigit) then
    some (s.foldl (fun n c => n * 10 + (c.toNat - 48)) 0)
  else none

/-- Python `int(s)` on an optionally signed decimal literal. -/
def pyIntParse? (s : String) : Option Int :=
  match s.data with
  | '-' :: rest => (digitsToNat? rest).map (fun n => -(n : Int))
  | '+' :: rest => (digitsToNat? rest).map (fun n => (n : Int))
  | l => (digitsToNat? l).map (fun n => (n : Int))

/-- Value of an unsigned decimal digit string (defaulting to 0 when empty). -/
def digitsVal (s : List Char) : Nat :=
  s.foldl (fun n c => n * 10 + (c.toNat - 48)) 0

/-- Core of Python `float(s)`: digits with an optional single decimal point,
at least one digit overall. -/
def pyFloatCore (l : List Char) : Option ℚ :=
  let ip := l.takeWhile (· ≠ '.')
  match l.dropWhile (· ≠ '.') with
  | [] => (digitsToNat? ip).map (fun n => (n : ℚ))
  | '.' :: fp =>
    if ip.all (·.isDigit) ∧ fp.all (·.isDigit) ∧ (ip ≠ [] ∨ fp ≠ []) then
      some ((digitsVal ip : ℚ) + (digitsVal fp : ℚ) / ((10 : ℚ) ^ fp.length))
    else none
  | _ => none

/-- Python `float(s)` on an optionally signed decimal literal. -/
def pyFloatParse? (s : String) : Option ℚ :=
  match s.data with
  | '-' :: rest => (pyFloatCore rest).map (fun q => -q)
  | '+' :: rest => pyFloatCore rest
  | l => pyFloatCore l

/-- The value domain produced by the conversion: Python int, float or str. -/
inductive PyVal where
  | pint (n : Int)
  | pfloat (q : ℚ)
  | pstr (s : String)
deriving DecidableEq

/-- Embedding of `convert_java_numeric_field` (read.py lines 1215-1250):
`None` passes through; otherwise the stringified input is parsed as int,
then as float, and returned as the original string when both fail. -/
def convert_java_numeric_field (java_field : Option String) : Option PyVal :=
  match java_field with
  | none => none
  | some snum =>
    match pyIntParse? snum with
    | some n => some (.pint n)
    | none =>
      match pyFloatParse? snum with
      | some q => some (.pfloat q)
      | none => some (.pstr snum)

end NimaIO

namespace NimaIO

/-- C9: `convert_java_numeric_field` stringifies the input, then attempts an
integer parse, then a float parse, and otherwise returns the string; `None`
passes through, `"976"` parses as the int 976 and `"0.976"` as the exact
float value 0.976. -/
theorem convert_java_numeric_priority :
    convert_java_numeric_field none = none ∧
    (∀ (s : String) (n : Int), pyIntParse? s = some n →
      convert_java_numeric_field (some s) = some (.pint n)) ∧
    (∀ (s : String) (q : ℚ), pyIntParse? s = none → pyFloatParse? s = some q →
      convert_java_numeric_field (some s) = some (.pfloat q)) ∧
    (∀ s : String, pyIntParse? s = none → pyFloatParse? s = none →
      convert_java_numeric_field (some s) = some (.pstr s)) ∧
    convert_java_numeric_field (some "976") = some (.pint 976) ∧
    convert_java_numeric_field (some "0.976") = some (.pfloat (976 / 1000)) := by
  refine ⟨rfl, ?_, ?_, ?_, by decide, ?_⟩
  · intro s n h
    simp [convert_java_numeric_field, h]
  · intro s q h1 h2
    simp [convert_java_numeric_field, h1, h2]
  · intro s h1 h2
    simp [convert_java_numeric_field, h1, h2]
  · have h1 : pyIntParse? "0.976" = none := by decide
    have h2 : pyFloatParse? "0.976" =
        some ((digitsVal ['0'] : ℚ) +
          (digitsVal ['9', '7', '6'] : ℚ) /
            (10 : ℚ) ^ (['9', '7', '6'] : List Char).length) := rfl
    have e1 : digitsVal ['0'] = 0 := by decide
    have e2 : digitsVal ['9', '7', '6'] = 976 := by decide
    have e3 : (['9', '7', '6'] : List Char).length = 3 := by decide
    simp only [convert_java_numeric_field, h1, h2, e1, e2, e3]
    norm_num

/-- Witness for `convert_java_numeric_priority` at the string `"42"`. -/
theorem convert_java_numeric_priority_witness :
    convert_java_numeric_field (some "42") = some (.pint 42) :=
  convert_java_numeric_priority.2.1 "42" 42 (by decide)

end NimaIO

namespace NimaIO

/-! ## `tidy_metadata` (read.py lines 299-327)
Python dicts become association lists with unique keys in insertion order;
the metadata dict is split into its plain entries (`top`) and the value of
its `"series"` key.  `none` as overall result models a raised `KeyError`. -/

/-- A Python dict as an insertion-ordered association list. -/
abbrev Dict (V : Type) := List (String × V)

/-- Python `d[k]` as an `Option` (a `none` models a `KeyError`). -/
def dGet? {V : Type} (d : Dict V) (k : String) : Option V :=
  (d.find? (fun p => p.1 == k)).map Prod.snd

/-- Python `d[k] = v`: overwrite in place when the key exists, else append. -/
def dictSet {V : Type} (d : Dict V) (k : String) (v : V) : Dict V :=
  if d.any (fun p => p.1 == k) then
    d.map (fun p => if p.1 == k then (k, v) else p)
  else d ++ [(k, v)]

/-- Python `d.pop(k)`'s removal effect. -/
def dErase {V : Type} (d : Dict V) (k : String) : Dict V :=
  d.eraseP (fun p => p.1 == k)

/-- `List.mapM` over `Option` written as a plain recursion: the first `none`
aborts, mirroring the first raised `KeyError` aborting a Python loop. -/
def optionMapList {α β : Type} (f : α → Option β) : List α → Option (List β)
  | [] => some []
  | a :: l =>
    match f a with
    | none => none
    | some b =>
      match optionMapList f l with
      | none => none
      | some bs => some (b :: bs)

/-- Python `ll.count(ll[0]) == len(ll)` (vacuously true when empty). -/
def allEqCount {V : Type} [DecidableEq V] (l : List V) : Bool :=
  match l with
  | [] => true
  | v0 :: _ => l.count v0 == l.length

/-- Metadata dict before `tidy_metadata`: plain entries plus the `"series"`
list of per-series dicts. -/
structure MDIn (V : Type) where
  top : Dict V
  series : List (Dict V)

/-- Metadata dict after `tidy_metadata`: the `"series"` key may be gone. -/
structure MDOut (V : Type) where
  top : Dict V
  series : Option (List (Dict V))
deriving DecidableEq

/-- The hoisting loop `for k in keys_samevalue: for d in md["series"]:
val = d.pop(k); md[k] = val` of `tidy_metadata`. -/
def hoistKeys {V : Type} [DecidableEq V] :
    List String → List (Dict V) → Dict V → Option (List (Dict V) × Dict V)
  | [], series, top => some (series, top)
  | k :: rest, series, top =>
    match optionMapList (fun d => dGet? d k) series with
    | none => none
    | some vals =>
      match vals.getLast? with
      | none => none
      | some val =>
        hoistKeys rest (series.map (fun d => dErase d k)) (dictSet top k val)

/-- Embedding of `tidy_metadata` (read.py lines 299-327): with exactly one
series, every entry of the single series dict is moved to the top level
(`popitem` order) and the `"series"` key removed; with two or more series,
the keys of the first series dict whose values agree across all series are
hoisted (value of the last series) and removed from every series dict, the
`"series"` key staying put. -/
def tidy_metadata {V : Type} [DecidableEq V] (md : MDIn V) :
    Option (MDOut V) :=
  match md.series with
  | [d] =>
    some ⟨d.reverse.foldl (fun t q => dictSet t q.1 q.2) md.top, none⟩
  | [] => some ⟨md.top, some []⟩
  | d0 :: d1 :: ds =>
    match optionMapList (fun k =>
        (optionMapList (fun d => dGet? d k) (d0 :: d1 :: ds)).map
          (fun ll => (k, ll)))
        (d0.map Prod.fst) with
    | none => none
    | some lls =>
      let keysSame := (lls.filter (fun kl => allEqCount kl.2)).map Prod.fst
      match hoistKeys keysSame (d0 :: d1 :: ds) md.top with
      | none => none
      | some (ser, top2) => some ⟨top2, some ser⟩

end NimaIO

namespace NimaIO

lemma dGet?_cons {V : Type} (p : String × V) (t : Dict V) (k : String) :
    dGet? (p :: t) k = if p.1 = k then some p.2 else dGet? t k := by
  by_cases h : p.1 = k <;> simp [dGet?, List.find?_cons, h]

lemma dGet?_eq_none_of_not_mem {V : Type} (d : Dict V) (k : String)
    (h : k ∉ d.map Prod.fst) : dGet? d k = none := by
  induction d with
  | nil => rfl
  | cons p t ih =>
    simp only [List.map_cons, List.mem_cons, not_or] at h
    rw [dGet?_cons, if_neg (fun hc => h.1 hc.symm)]
    exact ih h.2

lemma dGet?_map_set {V : Type} (t : Dict V) (k : String) (v : V) :
    dGet? (t.map (fun p => if p.1 == k then (k, v) else p)) k =
      if t.any (fun p => p.1 == k) then some v else none := by
  induction t with
  | nil => rfl
  | cons p t ih =>
    rw [List.map_cons, List.any_cons]
    by_cases hp : p.1 = k
    · have hb : (p.1 == k) = true := by simpa using hp
      rw [hb, if_pos rfl]
      rw [dGet?_cons]
      simp
    · have hb : (p.1 == k) = false := by simpa using hp
      rw [hb, if_neg Bool.false_ne_true]
      rw [dGet?_cons, if_neg hp, ih, Bool.false_or]

lemma dGet?_map_set_ne {V : Type} (t : Dict V) (k' k : String) (v : V)
    (hne : k' ≠ k) :
    dGet? (t.map (fun p => if p.1 == k' then (k', v) else p)) k = dGet? t k := by
  induction t with
  | nil => rfl
  | cons p t ih =>
    rw [List.map_cons]
    by_cases hp : p.1 = k'
    · have hb : (p.1 == k') = true := by simpa using hp
      rw [hb, if_pos rfl]
      rw [dGet?_cons, dGet?_cons, if_neg hne, if_neg (hp ▸ hne), ih]
    · have hb : (p.1 == k') = false := by simpa using hp
      rw [hb, if_neg Bool.false_ne_true]
      rw [dGet?_cons, dGet?_cons, ih]

lemma dGet?_dictSet_self {V : Type} (t : Dict V) (k : String) (v : V) :
    dGet? (dictSet t k v) k = some v := by
  unfold dictSet
  by_cases h : t.any (fun p => p.1 == k)
  · rw [if_pos h, dGet?_map_set, if_pos h]
  · rw [if_neg h]
    have hnm : k ∉ t.map Prod.fst := by
      intro hm
      apply h
      rw [List.any_eq_true]
      rw [List.mem_map] at hm
      obtain ⟨p, hp, hk⟩ := hm
      exact ⟨p, hp, by simpa using hk⟩
    unfold dGet?
    rw [List.find?_append]
    rw [show List.find? (fun p => p.1 == k) t = none from by
      rw [List.find?_eq_none]
      intro p hp
      simp only [beq_iff_eq]
      intro hk
      exact hnm (List.mem_map.mpr ⟨p, hp, hk⟩)]
    simp [List.find?]

lemma dGet?_dictSet_ne {V : Type} (t : Dict V) (k' k : String) (v : V)
    (hne : k' ≠ k) : dGet? (dictSet t k' v) k = dGet? t k := by
  unfold dictSet
  by_cases h : t.any (fun p => p.1 == k')
  · rw [if_pos h]
    exact dGet?_map_set_ne t k' k v hne
  · rw [if_neg h]
    unfold dGet?
    rw [List.find?_append]
    cases hf : List.find? (fun p => p.1 == k) t with
    | some p => simp [hf]
    | none =>
      simp only [hf, Option.none_or]
      have hb2 : (k' == k) = false := by simpa using hne
      rw [show List.find? (fun p => p.1 == k) [(k', v)] = none from by
        simp [List.find?, hb2]]

lemma dGet?_dErase_ne {V : Type} (t : Dict V) (k' k : String) (hne : k' ≠ k) :
    dGet? (dErase t k') k = dGet? t k := by
  induction t with
  | nil => rfl
  | cons p t ih =>
    unfold dErase
    rw [List.eraseP_cons]
    by_cases hp : p.1 = k'
    · have hb : (p.1 == k') = true := by simpa using hp
      rw [hb, cond_true]
      rw [dGet?_cons, if_neg (fun hc => hne (hp.symm.trans hc))]
    · have hb : (p.1 == k') = false := by simpa using hp
      rw [hb, cond_false]
      rw [dGet?_cons, dGet?_cons]
      unfold dErase at ih
      rw [ih]

lemma dGet?_dErase_self {V : Type} (t : Dict V) (k : String)
    (hnd : (t.map Prod.fst).Nodup) : dGet? (dErase t k) k = none := by
  induction t with
  | nil => rfl
  | cons p t ih =>
    simp only [List.map_cons, List.nodup_cons] at hnd
    unfold dErase
    rw [List.eraseP_cons]
    by_cases hp : p.1 = k
    · have hb : (p.1 == k) = true := by simpa using hp
      rw [hb, cond_true]
      exact dGet?_eq_none_of_not_mem t k (hp ▸ hnd.1)
    · have hb : (p.1 == k) = false := by simpa using hp
      rw [hb, cond_false]
      rw [dGet?_cons, if_neg hp]
      exact ih hnd.2

lemma keys_dErase_sublist {V : Type} (t : Dict V) (k : String) :
    ((dErase t k).map Prod.fst).Sublist (t.map Prod.fst) :=
  List.Sublist.map Prod.fst (List.eraseP_sublist t)

lemma nodup_keys_dErase {V : Type} (t : Dict V) (k : String)
    (hnd : (t.map Prod.fst).Nodup) : ((dErase t k).map Prod.fst).Nodup :=
  List.Nodup.sublist (keys_dErase_sublist t k) hnd

end NimaIO

namespace NimaIO

lemma mem_of_getLast?' {α : Type} (l : List α) (a : α) (h : l.getLast? = some a) :
    a ∈ l := by
  cases l with
  | nil => simp at h
  | cons x xs =>
    rw [getLast?_eq_getLastD (x :: xs) x (by simp)] at h
    injection h with h
    rw [← h]
    exact getLastD_mem _ _ (by simp)

lemma optionMapList_length_getD {α β : Type} (f : α → Option β) (l : List α)
    (r : List β) (h : optionMapList f l = some r) (da : α) (db : β) :
    r.length = l.length ∧
    ∀ i, i < l.length → f (l.getD i da) = some (r.getD i db) := by
  induction l generalizing r with
  | nil =>
    unfold optionMapList at h
    injection h with h
    subst h
    exact ⟨rfl, fun i hi => absurd hi (by simp)⟩
  | cons a l ih =>
    unfold optionMapList at h
    cases hfa : f a with
    | none => rw [hfa] at h; exact absurd h (by simp)
    | some b =>
      rw [hfa] at h
      cases hrec : optionMapList f l with
      | none => rw [hrec] at h; exact absurd h (by simp)
      | some bs =>
        rw [hrec] at h
        injection h with h
        subst h
        obtain ⟨hlen, hpt⟩ := ih bs hrec
        refine ⟨by simp [hlen], ?_⟩
        intro i hi
        cases i with
        | zero => simpa using hfa
        | succ i => simpa using hpt i (by simpa using hi)

lemma optionMapList_mem_right {α β : Type} (f : α → Option β) (l : List α)
    (r : List β) (h : optionMapList f l = some r) (b : β) (hb : b ∈ r) :
    ∃ a ∈ l, f a = some b := by
  induction l generalizing r with
  | nil =>
    unfold optionMapList at h
    injection h with h
    subst h
    simp at hb
  | cons a l ih =>
    unfold optionMapList at h
    cases hfa : f a with
    | none => rw [hfa] at h; exact absurd h (by simp)
    | some b0 =>
      rw [hfa] at h
      cases hrec : optionMapList f l with
      | none => rw [hrec] at h; exact absurd h (by simp)
      | some bs =>
        rw [hrec] at h
        injection h with h
        subst h
        rcases List.mem_cons.mp hb with rfl | hb2
        · exact ⟨a, by simp, hfa⟩
        · obtain ⟨a2, ha2, hfa2⟩ := ih bs hrec hb2
          exact ⟨a2, by simp [ha2], hfa2⟩

lemma optionMapList_mem_left {α β : Type} (f : α → Option β) (l : List α)
    (r : List β) (h : optionMapList f l = some r) (a : α) (ha : a ∈ l) :
    ∃ b ∈ r, f a = some b := by
  induction l generalizing r with
  | nil => simp at ha
  | cons a0 l ih =>
    unfold optionMapList at h
    cases hfa : f a0 with
    | none => rw [hfa] at h; exact absurd h (by simp)
    | some b0 =>
      rw [hfa] at h
      cases hrec : optionMapList f l with
      | none => rw [hrec] at h; exact absurd h (by simp)
      | some bs =>
        rw [hrec] at h
        injection h with h
        subst h
        rcases List.mem_cons.mp ha with rfl | ha2
        · exact ⟨b0, by simp, hfa⟩
        · obtain ⟨b2, hb2, hfb2⟩ := ih bs hrec ha2
          exact ⟨b2, by simp [hb2], hfb2⟩

lemma optionMapList_map_eq {α β γ : Type} (f : α → Option β) (g : β → γ)
    (gl : α → γ) (l : List α) (r : List β) (h : optionMapList f l = some r)
    (hg : ∀ a b, f a = some b → g b = gl a) : r.map g = l.map gl := by
  induction l generalizing r with
  | nil =>
    unfold optionMapList at h
    injection h with h
    subst h
    rfl
  | cons a l ih =>
    unfold optionMapList at h
    cases hfa : f a with
    | none => rw [hfa] at h; exact absurd h (by simp)
    | some b =>
      rw [hfa] at h
      cases hrec : optionMapList f l with
      | none => rw [hrec] at h; exact absurd h (by simp)
      | some bs =>
        rw [hrec] at h
        injection h with h
        subst h
        rw [List.map_cons, List.map_cons, hg a b hfa, ih bs hrec]

lemma getD_map_dict {V : Type} (series : List (Dict V)) (f : Dict V → Dict V)
    (i : Nat) (hi : i < series.length) :
    (series.map f).getD i [] = f (series.getD i []) := by
  rw [List.getD_eq_getElem _ _ (by simpa using hi), List.getD_eq_getElem _ _ hi]
  simp

lemma dGet?_foldl_set_not_mem {V : Type} (L : Dict V) (t : Dict V) (k : String)
    (h : k ∉ L.map Prod.fst) :
    dGet? (L.foldl (fun acc q => dictSet acc q.1 q.2) t) k = dGet? t k := by
  induction L generalizing t with
  | nil => rfl
  | cons q L ih =>
    simp only [List.map_cons, List.mem_cons, not_or] at h
    rw [List.foldl_cons, ih _ h.2,
      dGet?_dictSet_ne _ _ _ _ (fun hc => h.1 hc.symm)]

lemma dGet?_foldl_set_mem {V : Type} (L : Dict V)
    (hnd : (L.map Prod.fst).Nodup) (t : Dict V) (p : String × V) (hp : p ∈ L) :
    dGet? (L.foldl (fun acc q => dictSet acc q.1 q.2) t) p.1 = some p.2 := by
  induction L generalizing t with
  | nil => cases hp
  | cons q L ih =>
    simp only [List.map_cons, List.nodup_cons] at hnd
    rw [List.foldl_cons]
    rcases List.mem_cons.mp hp with rfl | hp2
    · rw [dGet?_foldl_set_not_mem L _ _ hnd.1]
      exact dGet?_dictSet_self ..
    · exact ih hnd.2 _ hp2

end NimaIO

namespace NimaIO

lemma hoistKeys_preserve {V : Type} [DecidableEq V] (ks : List String)
    (series : List (Dict V)) (top : Dict V) (out : List (Dict V) × Dict V)
    (k : String) (hk : k ∉ ks) (h : hoistKeys ks series top = some out) :
    dGet? out.2 k = dGet? top k ∧ out.1.length = series.length ∧
    ∀ i, i < series.length →
      dGet? (out.1.getD i []) k = dGet? (series.getD i []) k := by
  induction ks generalizing series top with
  | nil =>
    unfold hoistKeys at h
    injection h with h
    subst h
    exact ⟨rfl, rfl, fun i hi => rfl⟩
  | cons k' rest ih =>
    simp only [List.mem_cons, not_or] at hk
    unfold hoistKeys at h
    cases hm : optionMapList (fun d => dGet? d k') series with
    | none => simp [hm] at h
    | some vals =>
      simp only [hm] at h
      cases hl : vals.getLast? with
      | none => simp [hl] at h
      | some val =>
        simp only [hl] at h
        obtain ⟨h1, h2, h3⟩ := ih (series.map (fun d => dErase d k'))
          (dictSet top k' val) hk.2 h
        refine ⟨?_, ?_, ?_⟩
        · rw [h1, dGet?_dictSet_ne _ _ _ _ (fun hc => hk.1 hc.symm)]
        · rw [h2, List.length_map]
        · intro i hi
          rw [h3 i (by simpa using hi), getD_map_dict series _ i hi,
            dGet?_dErase_ne _ _ _ (fun hc => hk.1 hc.symm)]

lemma hoistKeys_process {V : Type} [DecidableEq V] (ks : List String)
    (series : List (Dict V)) (top : Dict V) (out : List (Dict V) × Dict V)
    (hnd : ks.Nodup) (hdnd : ∀ d ∈ series, (d.map Prod.fst).Nodup)
    (k : String) (v : V) (hk : k ∈ ks)
    (hv : ∀ d ∈ series, dGet? d k = some v)
    (h : hoistKeys ks series top = some out) :
    dGet? out.2 k = some v ∧ ∀ d' ∈ out.1, dGet? d' k = none := by
  induction ks generalizing series top with
  | nil => cases hk
  | cons k' rest ih =>
    simp only [List.nodup_cons] at hnd
    unfold hoistKeys at h
    cases hm : optionMapList (fun d => dGet? d k') series with
    | none => simp [hm] at h
    | some vals =>
      simp only [hm] at h
      cases hl : vals.getLast? with
      | none => simp [hl] at h
      | some val =>
        simp only [hl] at h
        rcases List.mem_cons.mp hk with rfl | hk2
        · -- this step hoists k itself
          have hval : val = v := by
            obtain ⟨d, hd, hfd⟩ := optionMapList_mem_right _ _ _ hm val
              (mem_of_getLast?' _ _ hl)
            rw [hv d hd] at hfd
            injection hfd with hfd
            exact hfd.symm
          subst hval
          obtain ⟨h1, h2, h3⟩ := hoistKeys_preserve rest _ _ out k hnd.1 h
          constructor
          · rw [h1]
            exact dGet?_dictSet_self ..
          · intro d' hd'
            obtain ⟨i, hi, hdi⟩ := List.mem_iff_getElem.mp hd'
            have hilen : i < series.length := by
              have := h2
              simp only [List.length_map] at this
              omega
            have hgd : d' = out.1.getD i [] := by
              rw [List.getD_eq_getElem _ _ hi, hdi]
            rw [hgd, h3 i (by simpa using hilen),
              getD_map_dict series _ i hilen]
            apply dGet?_dErase_self
            apply hdnd
            rw [List.getD_eq_getElem _ _ hilen]
            exact List.getElem_mem hilen
        · -- k is hoisted later
          have hne : k' ≠ k := fun hc => hnd.1 (hc ▸ hk2)
          refine ih (series.map (fun d => dErase d k')) (dictSet top k' val)
            hnd.2 ?_ hk2 ?_ h
          · intro d hd
            rw [List.mem_map] at hd
            obtain ⟨d0, hd0, rfl⟩ := hd
            exact nodup_keys_dErase d0 k' (hdnd d0 hd0)
          · intro d hd
            rw [List.mem_map] at hd
            obtain ⟨d0, hd0, rfl⟩ := hd
            rw [dGet?_dErase_ne _ _ _ hne]
            exact hv d0 hd0

end NimaIO

namespace NimaIO

lemma optionMapList_length {α β : Type} (f : α → Option β) (l : List α)
    (r : List β) (h : optionMapList f l = some r) : r.length = l.length := by
  induction l generalizing r with
  | nil =>
    unfold optionMapList at h
    injection h with h
    subst h
    rfl
  | cons a l ih =>
    unfold optionMapList at h
    cases hfa : f a with
    | none => rw [hfa] at h; exact absurd h (by simp)
    | some b =>
      rw [hfa] at h
      cases hrec : optionMapList f l with
      | none => rw [hrec] at h; exact absurd h (by simp)
      | some bs =>
        rw [hrec] at h
        injection h with h
        subst h
        simp [ih bs hrec]

lemma hoistKeys_length {V : Type} [DecidableEq V] (ks : List String)
    (series : List (Dict V)) (top : Dict V) (out : List (Dict V) × Dict V)
    (h : hoistKeys ks series top = some out) : out.1.length = series.length := by
  induction ks generalizing series top with
  | nil =>
    unfold hoistKeys at h
    injection h with h
    subst h
    rfl
  | cons k' rest ih =>
    unfold hoistKeys at h
    cases hm : optionMapList (fun d => dGet? d k') series with
    | none => simp [hm] at h
    | some vals =>
      simp only [hm] at h
      cases hl : vals.getLast? with
      | none => simp [hl] at h
      | some val =>
        simp only [hl] at h
        rw [ih _ _ h, List.length_map]

/-- C10: `tidy_metadata` with exactly one series moves every key of the
single series dict to the top level and removes the `"series"` key entirely;
with two or more series the `"series"` key is always retained and exactly
the keys whose values agree across all series are hoisted (keys with
disagreeing values stay untouched at both levels). -/
theorem tidy_metadata_behavior {V : Type} [DecidableEq V] :
    (∀ (top d : Dict V), "series" ∉ d.map Prod.fst → (d.map Prod.fst).Nodup →
      ∃ out, tidy_metadata ⟨top, [d]⟩ = some out ∧ out.series = none ∧
        ∀ p ∈ d, dGet? out.top p.1 = some p.2) ∧
    (∀ (top d0 d1 : Dict V) (ds : List (Dict V)) (out : MDOut V),
      (∀ d ∈ d0 :: d1 :: ds, (d.map Prod.fst).Nodup) →
      tidy_metadata ⟨top, d0 :: d1 :: ds⟩ = some out →
      ∃ ser, out.series = some ser ∧ ser.length = (d0 :: d1 :: ds).length ∧
        (∀ (k : String) (v : V), k ∈ d0.map Prod.fst →
          (∀ d ∈ d0 :: d1 :: ds, dGet? d k = some v) →
          dGet? out.top k = some v ∧ ∀ d' ∈ ser, dGet? d' k = none) ∧
        (∀ k : String,
          (∃ da ∈ d0 :: d1 :: ds, ∃ db ∈ d0 :: d1 :: ds,
            dGet? da k ≠ dGet? db k) →
          dGet? out.top k = dGet? top k ∧
          ∀ i, i < (d0 :: d1 :: ds).length →
            dGet? (ser.getD i []) k =
              dGet? ((d0 :: d1 :: ds).getD i []) k)) := by
  constructor
  · intro top d hser hnd
    refine ⟨_, rfl, rfl, ?_⟩
    intro p hp
    apply dGet?_foldl_set_mem d.reverse ?_ top p (by simpa using hp)
    rw [List.map_reverse]
    exact List.nodup_reverse.mpr hnd
  · intro top d0 d1 ds out hdnd htidy
    unfold tidy_metadata at htidy
    cases hm : optionMapList (fun k =>
        (optionMapList (fun d => dGet? d k) (d0 :: d1 :: ds)).map
          (fun ll => (k, ll))) (d0.map Prod.fst) with
    | none => simp [hm] at htidy
    | some lls =>
      simp only [hm] at htidy
      cases hh : hoistKeys ((lls.filter (fun kl => allEqCount kl.2)).map
          Prod.fst) (d0 :: d1 :: ds) top with
      | none => simp [hh] at htidy
      | some st =>
        simp only [hh] at htidy
        obtain ⟨ser, top2⟩ := st
        injection htidy with htidy
        subst htidy
        have hkeys : lls.map Prod.fst = d0.map Prod.fst := by
          have := optionMapList_map_eq _ Prod.fst (fun a => a) _ _ hm ?_
          · simpa using this
          · intro a b hab
            cases hmm : optionMapList (fun d => dGet? d a) (d0 :: d1 :: ds) with
            | none => rw [hmm] at hab; simp at hab
            | some ll =>
              rw [hmm] at hab
              simp only [Option.map_some'] at hab
              injection hab with hab
              rw [← hab]
        have hKSnodup : ((lls.filter (fun kl => allEqCount kl.2)).map
            Prod.fst).Nodup := by
          apply List.Nodup.sublist
            (List.Sublist.map Prod.fst (List.filter_sublist lls))
          rw [hkeys]
          exact hdnd d0 (by simp)
        refine ⟨ser, rfl, ?_, ?_, ?_⟩
        · exact hoistKeys_length _ _ _ _ hh
        · -- agreeing keys are hoisted
          intro k v hk0 hkv
          obtain ⟨b, hb, hfb⟩ := optionMapList_mem_left _ _ _ hm k hk0
          cases hmm : optionMapList (fun d => dGet? d k) (d0 :: d1 :: ds) with
          | none => rw [hmm] at hfb; simp at hfb
          | some ll =>
            rw [hmm] at hfb
            simp only [Option.map_some'] at hfb
            injection hfb with hfb
            subst hfb
            have hllv : ∀ b2 ∈ ll, b2 = v := by
              intro b2 hb2
              obtain ⟨d, hd, hfd⟩ := optionMapList_mem_right _ _ _ hmm b2 hb2
              rw [hkv d hd] at hfd
              injection hfd with hfd
              exact hfd.symm
            have hlen : ll.length = (d0 :: d1 :: ds).length :=
              optionMapList_length _ _ _ hmm
            have hallEq : allEqCount ll = true := by
              cases hc : ll with
              | nil => rw [hc] at hlen; simp at hlen
              | cons v0 vs =>
                unfold allEqCount
                rw [beq_iff_eq, List.count_eq_length]
                intro b2 hb2
                rw [hllv v0 (by rw [hc]; simp), hllv b2 (hc ▸ hb2)]
            have hkKS : k ∈ (lls.filter (fun kl => allEqCount kl.2)).map
                Prod.fst :=
              List.mem_map.mpr ⟨(k, ll),
                List.mem_filter.mpr ⟨hb, by simpa using hallEq⟩, rfl⟩
            exact hoistKeys_process _ _ _ _ hKSnodup hdnd k v hkKS hkv hh
        · -- disagreeing keys untouched
          intro k hdis
          obtain ⟨da, hda, db, hdb, hne⟩ := hdis
          have hkKS : k ∉ (lls.filter (fun kl => allEqCount kl.2)).map
              Prod.fst := by
            intro hmem
            rw [List.mem_map] at hmem
            obtain ⟨kl, hklf, hkl1⟩ := hmem
            rw [List.mem_filter] at hklf
            obtain ⟨hkl, hklEq⟩ := hklf
            obtain ⟨a, ha, hfa⟩ := optionMapList_mem_right _ _ _ hm kl hkl
            cases hmm : optionMapList (fun d => dGet? d a) (d0 :: d1 :: ds) with
            | none => rw [hmm] at hfa; simp at hfa
            | some ll =>
              rw [hmm] at hfa
              simp only [Option.map_some'] at hfa
              injection hfa with hfa
              rw [← hfa] at hkl1 hklEq
              simp only at hkl1 hklEq
              rw [hkl1] at hmm
              have hlen : ll.length = (d0 :: d1 :: ds).length :=
                optionMapList_length _ _ _ hmm
              cases hc : ll with
              | nil => rw [hc] at hlen; simp at hlen
              | cons v0 vs =>
                have huni : ∀ b2 ∈ ll, v0 = b2 := by
                  rw [hc]
                  rw [hc] at hklEq
                  unfold allEqCount at hklEq
                  rw [beq_iff_eq] at hklEq
                  exact List.count_eq_length.mp hklEq
                have hgall : ∀ d ∈ d0 :: d1 :: ds, dGet? d k = some v0 := by
                  intro d hd
                  obtain ⟨b2, hb2, hfd⟩ :=
                    optionMapList_mem_left _ _ _ hmm d hd
                  rw [← huni b2 hb2] at hfd
                  exact hfd
                exact hne ((hgall da hda).trans (hgall db hdb).symm)
          obtain ⟨h1, h2, h3⟩ :=
            hoistKeys_preserve _ _ _ (ser, top2) k hkKS hh
          exact ⟨h1, fun i hi => h3 i hi⟩

end NimaIO

namespace NimaIO

/-- Witness for `tidy_metadata_behavior`: a single-series dict and a
two-series dict with one agreeing and one disagreeing key. -/
theorem tidy_metadata_behavior_witness :
    (∃ out, tidy_metadata ⟨[("SizeS", "1")], [[("SizeX", "5")]]⟩ = some out ∧
      out.series = none ∧
      ∀ p ∈ [("SizeX", "5")], dGet? out.top p.1 = some p.2) ∧
    (∃ ser, (⟨[("SizeS", "2"), ("SizeX", "5")],
        some [[("Name", "a")], [("Name", "b")]]⟩ : MDOut String).series =
          some ser ∧
      ser.length = ([[("SizeX", "5"), ("Name", "a")],
        [("SizeX", "5"), ("Name", "b")]] : List (Dict String)).length ∧
      (∀ (k : String) (v : String),
        k ∈ ([("SizeX", "5"), ("Name", "a")] : Dict String).map Prod.fst →
        (∀ d ∈ [[("SizeX", "5"), ("Name", "a")],
          [("SizeX", "5"), ("Name", "b")]], dGet? d k = some v) →
        dGet? (⟨[("SizeS", "2"), ("SizeX", "5")],
          some [[("Name", "a")], [("Name", "b")]]⟩ : MDOut String).top k =
            some v ∧
        ∀ d' ∈ ser, dGet? d' k = none) ∧
      (∀ k : String,
        (∃ da ∈ [[("SizeX", "5"), ("Name", "a")],
            [("SizeX", "5"), ("Name", "b")]],
          ∃ db ∈ [[("SizeX", "5"), ("Name", "a")],
            [("SizeX", "5"), ("Name", "b")]], dGet? da k ≠ dGet? db k) →
        dGet? (⟨[("SizeS", "2"), ("SizeX", "5")],
          some [[("Name", "a")], [("Name", "b")]]⟩ : MDOut String).top k =
            dGet? [("SizeS", "2")] k ∧
        ∀ i, i < ([[("SizeX", "5"), ("Name", "a")],
            [("SizeX", "5"), ("Name", "b")]] : List (Dict String)).length →
          dGet? (ser.getD i []) k =
            dGet? (([[("SizeX", "5"), ("Name", "a")],
              [("SizeX", "5"), ("Name", "b")]] : List (Dict String)).getD
                i []) k)) :=
  ⟨tidy_metadata_behavior.1 [("SizeS", "1")] [("SizeX", "5")]
      (by decide) (by decide),
    tidy_metadata_behavior.2 [("SizeS", "2")] [("SizeX", "5"), ("Name", "a")]
      [("SizeX", "5"), ("Name", "b")] []
      ⟨[("SizeS", "2"), ("SizeX", "5")],
        some [[("Name", "a")], [("Name", "b")]]⟩
      (by decide) (by decide)⟩

end NimaIO

namespace NimaIO

/-! ## Mosaic stitcher: `stitch` (read.py lines 685-746)
Stage coordinates are modelled as integers (the code only compares and
sorts them), pixel planes as functions `dy ↦ dx ↦ value` of uniform size
`sizeY × sizeX` (the code assumes uniform per-series frame size), and the
output NumPy array as a list of rows.  `Except.error` models a raised
exception (`ValueError` / `IndexError`), so an error result carries no
partial mosaic. -/

/-- A stage position triple `(x, y, z)`. -/
abbrev Pos3 := Int × Int × Int

/-- `List.mapM` over `Except` as a plain recursion: the first raised error
aborts, as in the Python nested loops. -/
def exceptMapList {α β : Type} (f : α → Except String β) :
    List α → Except String (List β)
  | [] => .ok []
  | a :: l =>
    match f a with
    | .error e => .error e
    | .ok b =>
      match exceptMapList f l with
      | .error e => .error e
      | .ok bs => .ok (b :: bs)

/-- `[next(iter(p))[:2] for p in xyz_list_of_sets]`: the XY part of each
series' single position (head of the set, modelled as a list). -/
def xyPositions (series : List (List Pos3)) : List (Int × Int) :=
  series.map (fun p => ((p.headD (0, 0, 0)).1, (p.headD (0, 0, 0)).2.1))

/-- `np.sort(list({xy[0] for xy in xy_positions}))`: distinct X coordinates
in ascending order. -/
def uniqueX (series : List (List Pos3)) : List Int :=
  (((xyPositions series).map Prod.fst).dedup).insertionSort (· ≤ ·)

/-- `np.sort(list({xy[1] for xy in xy_positions}))`: distinct Y coordinates
in ascending order. -/
def uniqueY (series : List (List Pos3)) : List Int :=
  (((xyPositions series).map Prod.snd).dedup).insertionSort (· ≤ ·)

/-- `[i for i, v in enumerate(xy_positions) if v == (x, y)]`. -/
def tileIndexes (series : List (List Pos3)) (x y : Int) : List Nat :=
  (List.range (xyPositions series).length).filter
    (fun i => (xyPositions series).getD i (0, 0) == (x, y))

/-- One cell of the tilemap: `-1` when no series matches, the series index
when exactly one matches, an error (Python `IndexError`) otherwise. -/
def tilemapCell (series : List (List Pos3)) (x y : Int) : Except String Int :=
  match tileIndexes series x y with
  | [] => .ok (-1)
  | [i] => .ok (i : Int)
  | _ => .error "Building tilemap failed in searching xy_position indexes."

/-- The tilemap built row-major over sorted unique Y then X coordinates. -/
def tilemap (series : List (List Pos3)) :
    Except String (List (List Int)) :=
  exceptMapList (fun y => exceptMapList (fun x => tilemapCell series x y)
    (uniqueX series)) (uniqueY series)

/-- One row (`dy` within tile-row `yt`) of the stitched plane: the
concatenation over tile-columns of either the matched series' pixel row or
a zero block. -/
def stitchRow (tm : List (List Int)) (planes : Nat → Nat → Nat → Int)
    (sizeX : Nat) (tilex : Nat) (yt dy : Nat) : List Int :=
  (List.range tilex).flatMap (fun xt =>
    let cell := (tm.getD yt []).getD xt (-1)
    if 0 ≤ cell then (List.range sizeX).map (fun dx => planes cell.toNat dy dx)
    else List.replicate sizeX 0)

/-- Embedding of `stitch` (read.py lines 685-746).  `series` holds each
series' set of distinct plane positions (`md["series"][i]["PositionXYZ"]`),
`sizeY`/`sizeX` the per-series frame size (`md["SizeY"]`, `md["SizeX"]`),
and `planes i dy dx` the pixel read `wrapper.read(series=i, ...)` for the
fixed `(c, t, z)` of this call.  Returns the stitched plane as a list of
`tiley * sizeY` rows of `tilex * sizeX` pixels; unmatched blocks stay 0. -/
def stitch (series : List (List Pos3)) (sizeY sizeX : Nat)
    (planes : Nat → Nat → Nat → Int) : Except String (List (List Int)) :=
  if ¬ series.all (fun p => p.length == 1) then
    .error "One or more series doesn't have a single XYZ position."
  else
    match tilemap series with
    | .error e => .error e
    | .ok tm =>
      .ok ((List.range (uniqueY series).length).flatMap (fun yt =>
        (List.range sizeY).map (fun dy =>
          stitchRow tm planes sizeX (uniqueX series).length yt dy)))

end NimaIO

namespace NimaIO

lemma getD_append_left {α : Type} (l1 l2 : List α) (i : Nat)
    (h : i < l1.length) (d : α) : (l1 ++ l2).getD i d = l1.getD i d := by
  rw [List.getD_eq_getElem _ d (by simp; omega), List.getD_eq_getElem _ d h]
  exact List.getElem_append_left ..

lemma getD_append_right {α : Type} (l1 l2 : List α) (n : Nat) (d : α) :
    (l1 ++ l2).getD (l1.length + n) d = l2.getD n d := by
  rw [List.getD, List.getD, List.get?_eq_getElem?, List.get?_eq_getElem?,
    List.getElem?_append_right (by omega)]
  simp

lemma getD_range (n i : Nat) (h : i < n) (d : Nat) :
    (List.range n).getD i d = i := by
  rw [List.getD_eq_getElem _ d (by simpa using h)]
  simp

lemma length_flatMap_const {α β : Type} (l : List β) (f : β → List α)
    (m : Nat) (h : ∀ b ∈ l, (f b).length = m) :
    (l.flatMap f).length = l.length * m := by
  induction l with
  | nil => simp
  | cons a t ih =>
    rw [List.flatMap_cons, List.length_append, h a (by simp),
      ih (fun b hb => h b (by simp [hb])), List.length_cons]
    ring

lemma flatMap_getD {α β : Type} (l : List β) (f : β → List α) (m i j : Nat)
    (d : α) (db : β) (h : ∀ b ∈ l, (f b).length = m) (hi : i < l.length)
    (hj : j < m) :
    (l.flatMap f).getD (i * m + j) d = (f (l.getD i db)).getD j d := by
  induction l generalizing i with
  | nil => simp at hi
  | cons b t ih =>
    rw [List.flatMap_cons]
    cases i with
    | zero =>
      rw [Nat.zero_mul, Nat.zero_add,
        getD_append_left _ _ j (by rw [h b (by simp)]; exact hj) d]
      rfl
    | succ i =>
      have : (i + 1) * m + j = (f b).length + (i * m + j) := by
        rw [h b (by simp)]
        ring
      rw [this, getD_append_right]
      exact ih i (fun b2 hb2 => h b2 (by simp [hb2])) (by simpa using hi)

lemma exceptMapList_ok_of_pointwise {α β : Type} (f : α → Except String β)
    (g : α → β) (l : List α) (h : ∀ a ∈ l, f a = .ok (g a)) :
    exceptMapList f l = .ok (l.map g) := by
  induction l with
  | nil => rfl
  | cons a t ih =>
    unfold exceptMapList
    rw [h a (by simp), ih (fun a2 ha2 => h a2 (by simp [ha2]))]
    rfl

lemma exceptMapList_error_inv {α β : Type} (f : α → Except String β)
    (l : List α) (e : String) (h : exceptMapList f l = .error e) :
    ∃ a ∈ l, f a = .error e := by
  induction l with
  | nil => simp [exceptMapList] at h
  | cons a t ih =>
    unfold exceptMapList at h
    cases hfa : f a with
    | error e2 =>
      rw [hfa] at h
      injection h with h
      subst h
      exact ⟨a, by simp, hfa⟩
    | ok b =>
      rw [hfa] at h
      cases hrec : exceptMapList f t with
      | error e2 =>
        rw [hrec] at h
        injection h with h
        subst h
        obtain ⟨a2, ha2, he2⟩ := ih hrec
        exact ⟨a2, by simp [ha2], he2⟩
      | ok bs => rw [hrec] at h; exact absurd h (by simp)

lemma exceptMapList_error {α β : Type} (f : α → Except String β)
    (msg : String) (l : List α)
    (h2 : ∀ a ∈ l, ∀ e, f a = .error e → e = msg)
    (h1 : ∃ a ∈ l, ∃ e, f a = .error e) :
    exceptMapList f l = .error msg := by
  induction l with
  | nil => obtain ⟨a, ha, _⟩ := h1; cases ha
  | cons a t ih =>
    unfold exceptMapList
    cases hfa : f a with
    | error e => rw [h2 a (by simp) e hfa]
    | ok b =>
      have h1' : ∃ a2 ∈ t, ∃ e, f a2 = .error e := by
        obtain ⟨a2, ha2, e, he⟩ := h1
        rcases List.mem_cons.mp ha2 with rfl | ha3
        · rw [hfa] at he; exact absurd he (by simp)
        · exact ⟨a2, ha3, e, he⟩
      rw [ih (fun a2 ha2 e he => h2 a2 (by simp [ha2]) e he) h1']

lemma tilemapCell_error_of_two (series : List (List Pos3)) (x y : Int)
    (h : 2 ≤ (tileIndexes series x y).length) :
    tilemapCell series x y =
      .error "Building tilemap failed in searching xy_position indexes." := by
  unfold tilemapCell
  cases ht : tileIndexes series x y with
  | nil => rw [ht] at h; simp at h
  | cons i rest =>
    cases rest with
    | nil => rw [ht] at h; simp at h
    | cons j r2 => rfl

lemma tilemapCell_error_msg (series : List (List Pos3)) (x y : Int)
    (e : String) (h : tilemapCell series x y = .error e) :
    e = "Building tilemap failed in searching xy_position indexes." := by
  unfold tilemapCell at h
  cases ht : tileIndexes series x y with
  | nil => rw [ht] at h; exact absurd h (by simp)
  | cons i rest =>
    cases rest with
    | nil => rw [ht] at h; exact absurd h (by simp)
    | cons j r2 =>
      rw [ht] at h
      injection h with h
      exact h.symm

/-- C3: `stitch` raises a `ValueError` (and returns no partial mosaic) when
some series does not have exactly one stage position, and raises an
`IndexError` (ambiguous tile placement, no partial output) when, all
positions being single, some grid cell matches more than one series. -/
theorem stitch_error_handling :
    (∀ (series : List (List Pos3)) (sizeY sizeX : Nat)
      (planes : Nat → Nat → Nat → Int),
      (∃ p ∈ series, p.length ≠ 1) →
      stitch series sizeY sizeX planes =
        .error "One or more series doesn't have a single XYZ position.") ∧
    (∀ (series : List (List Pos3)) (sizeY sizeX : Nat)
      (planes : Nat → Nat → Nat → Int),
      series.all (fun p => p.length == 1) = true →
      (∃ y ∈ uniqueY series, ∃ x ∈ uniqueX series,
        2 ≤ (tileIndexes series x y).length) →
      stitch series sizeY sizeX planes =
        .error "Building tilemap failed in searching xy_position indexes.") := by
  constructor
  · intro series sizeY sizeX planes hex
    have hall : series.all (fun p => p.length == 1) = false := by
      rw [List.all_eq_false]
      obtain ⟨p, hp, hlen⟩ := hex
      exact ⟨p, hp, by simpa using hlen⟩
    unfold stitch
    rw [if_pos (by simp [hall])]
  · intro series sizeY sizeX planes hall hamb
    have htm : tilemap series =
        .error "Building tilemap failed in searching xy_position indexes." := by
      unfold tilemap
      apply exceptMapList_error
      · intro y hy e he
        obtain ⟨x, hx, hxe⟩ := exceptMapList_error_inv _ _ _ he
        exact tilemapCell_error_msg series x y e hxe
      · obtain ⟨y, hy, x, hx, h2⟩ := hamb
        refine ⟨y, hy, "Building tilemap failed in searching xy_position indexes.", ?_⟩
        apply exceptMapList_error
        · intro x2 hx2 e he
          exact tilemapCell_error_msg series x2 y e he
        · exact ⟨x, hx, _, tilemapCell_error_of_two series x y h2⟩
    unfold stitch
    rw [if_neg (by simp [hall]), htm]

/-- Witness for `stitch_error_handling`: a series with an empty position
set, and two series sharing the same XY position. -/
theorem stitch_error_handling_witness :
    stitch [([] : List Pos3)] 1 1 (fun _ _ _ => 1) =
      .error "One or more series doesn't have a single XYZ position." ∧
    stitch [[((0 : Int), (0 : Int), (0 : Int))], [(0, 0, 5)]] 1 1
        (fun _ _ _ => 1) =
      .error "Building tilemap failed in searching xy_position indexes." :=
  ⟨stitch_error_handling.1 [[]] 1 1 _ ⟨[], by simp, by simp⟩,
    stitch_error_handling.2 [[(0, 0, 0)], [(0, 0, 5)]] 1 1 _ (by decide)
      ⟨0, by decide, 0, by decide, by decide⟩⟩

end NimaIO

namespace NimaIO

/-- The value a successfully-built tilemap stores for a grid cell: `-1` for
no matching series, else the matching series index (agrees with
`tilemapCell` whenever the cell is unambiguous). -/
def cellVal (series : List (List Pos3)) (x y : Int) : Int :=
  match tileIndexes series x y with
  | [] => -1
  | i :: _ => (i : Int)

lemma getD_map' {α β : Type} (l : List α) (g : α → β) (i : Nat)
    (hi : i < l.length) (d : β) (d' : α) :
    (l.map g).getD i d = g (l.getD i d') := by
  rw [List.getD_eq_getElem _ d (by simpa using hi), List.getD_eq_getElem _ d' hi]
  simp

lemma tilemapCell_ok (series : List (List Pos3)) (x y : Int)
    (h : (tileIndexes series x y).length ≤ 1) :
    tilemapCell series x y = .ok (cellVal series x y) := by
  unfold tilemapCell cellVal
  cases ht : tileIndexes series x y with
  | nil => rfl
  | cons i rest =>
    cases rest with
    | nil => rfl
    | cons j r2 => rw [ht] at h; simp at h

lemma tilemap_ok (series : List (List Pos3))
    (hnoamb : ∀ y ∈ uniqueY series, ∀ x ∈ uniqueX series,
      (tileIndexes series x y).length ≤ 1) :
    tilemap series = .ok ((uniqueY series).map (fun y =>
      (uniqueX series).map (fun x => cellVal series x y))) := by
  unfold tilemap
  apply exceptMapList_ok_of_pointwise
  intro y hy
  apply exceptMapList_ok_of_pointwise
  intro x hx
  exact tilemapCell_ok series x y (hnoamb y hy x hx)

lemma stitchRow_length (tm : List (List Int)) (planes : Nat → Nat → Nat → Int)
    (sizeX tilex yt dy : Nat) :
    (stitchRow tm planes sizeX tilex yt dy).length = tilex * sizeX := by
  unfold stitchRow
  rw [length_flatMap_const _ _ sizeX ?_, List.length_range]
  intro xt hxt
  dsimp only
  split <;> simp

/-- C6: under the single-position precondition and with every grid cell
unambiguous, `stitch` succeeds; the output has `(# distinct Y) * sizeY`
rows of `(# distinct X) * sizeX` pixels, rows/columns ordered by ascending
Y/X; a block whose cell matched exactly one series holds that series'
plane pixel-for-pixel, and an unmatched block is all zero. -/
theorem stitch_placement (series : List (List Pos3)) (sizeY sizeX : Nat)
    (planes : Nat → Nat → Nat → Int)
    (hall : series.all (fun p => p.length == 1) = true)
    (hnoamb : ∀ y ∈ uniqueY series, ∀ x ∈ uniqueX series,
      (tileIndexes series x y).length ≤ 1) :
    ∃ plane, stitch series sizeY sizeX planes = .ok plane ∧
      plane.length = (uniqueY series).length * sizeY ∧
      (∀ row ∈ plane, row.length = (uniqueX series).length * sizeX) ∧
      List.Sorted (· ≤ ·) (uniqueY series) ∧ (uniqueY series).Nodup ∧
      List.Sorted (· ≤ ·) (uniqueX series) ∧ (uniqueX series).Nodup ∧
      (∀ yt dy xt dx, yt < (uniqueY series).length → dy < sizeY →
        xt < (uniqueX series).length → dx < sizeX →
        (tileIndexes series ((uniqueX series).getD xt 0)
            ((uniqueY series).getD yt 0) = [] →
          (plane.getD (yt * sizeY + dy) []).getD (xt * sizeX + dx) 0 = 0) ∧
        (∀ i, tileIndexes series ((uniqueX series).getD xt 0)
            ((uniqueY series).getD yt 0) = [i] →
          (plane.getD (yt * sizeY + dy) []).getD (xt * sizeX + dx) 0 =
            planes i dy dx)) := by
  have htm := tilemap_ok series hnoamb
  refine ⟨(List.range (uniqueY series).length).flatMap (fun yt =>
    (List.range sizeY).map (fun dy =>
      stitchRow ((uniqueY series).map (fun y =>
        (uniqueX series).map (fun x => cellVal series x y)))
        planes sizeX (uniqueX series).length yt dy)),
    ?_, ?_, ?_, ?_, ?_, ?_, ?_, ?_⟩
  · unfold stitch
    rw [if_neg (by simp [hall]), htm]
  · rw [length_flatMap_const _ _ sizeY (fun b hb => by simp), List.length_range]
  · intro row hrow
    rw [List.mem_flatMap] at hrow
    obtain ⟨yt, hyt, hrow⟩ := hrow
    rw [List.mem_map] at hrow
    obtain ⟨dy, hdy, rfl⟩ := hrow
    exact stitchRow_length ..
  · exact List.sorted_insertionSort _ _
  · exact ((List.perm_insertionSort _ _).nodup_iff).mpr (List.nodup_dedup _)
  · exact List.sorted_insertionSort _ _
  · exact ((List.perm_insertionSort _ _).nodup_iff).mpr (List.nodup_dedup _)
  · intro yt dy xt dx hyt hdy hxt hdx
    set TM := (uniqueY series).map (fun y =>
      (uniqueX series).map (fun x => cellVal series x y)) with hTM
    have hrow : (((List.range (uniqueY series).length).flatMap (fun yt2 =>
        (List.range sizeY).map (fun dy2 =>
          stitchRow TM planes sizeX (uniqueX series).length yt2 dy2))).getD
            (yt * sizeY + dy) []) =
        stitchRow TM planes sizeX (uniqueX series).length yt dy := by
      rw [flatMap_getD _ _ sizeY yt dy [] 0 (fun b hb => by simp)
        (by simpa using hyt) hdy]
      rw [getD_range _ _ hyt]
      rw [getD_map' _ _ dy (by simpa using hdy) [] 0]
      rw [getD_range _ _ hdy]
    have hcell : (TM.getD yt []).getD xt (-1) =
        cellVal series ((uniqueX series).getD xt 0)
          ((uniqueY series).getD yt 0) := by
      rw [hTM, getD_map' _ _ yt (by simpa using hyt) [] 0,
        getD_map' _ _ xt (by simpa using hxt) (-1) 0]
    have hpix : ((List.range (uniqueX series).length).flatMap (fun xt2 =>
        let cell := (TM.getD yt []).getD xt2 (-1)
        if 0 ≤ cell then
          (List.range sizeX).map (fun dx2 => planes cell.toNat dy dx2)
        else List.replicate sizeX 0)).getD (xt * sizeX + dx) 0 =
        (let cell := (TM.getD yt []).getD xt (-1)
         if 0 ≤ cell then
           (List.range sizeX).map (fun dx2 => planes cell.toNat dy dx2)
         else List.replicate sizeX 0).getD dx 0 := by
      rw [flatMap_getD _ _ sizeX xt dx 0 0 ?_ (by simpa using hxt) hdx]
      · rw [getD_range _ _ hxt]
      · intro b hb
        dsimp only
        split <;> simp
    constructor
    · intro hempty
      rw [hrow]
      unfold stitchRow
      rw [hpix, hcell]
      have : cellVal series ((uniqueX series).getD xt 0)
          ((uniqueY series).getD yt 0) = -1 := by
        unfold cellVal
        rw [hempty]
      rw [this]
      norm_num
    · intro i hone
      rw [hrow]
      unfold stitchRow
      rw [hpix, hcell]
      have : cellVal series ((uniqueX series).getD xt 0)
          ((uniqueY series).getD yt 0) = (i : Int) := by
        unfold cellVal
        rw [hone]
      rw [this]
      rw [if_pos (by positivity)]
      rw [getD_map' _ _ dx (by simpa using hdx) 0 0, getD_range _ _ hdx]
      simp

end NimaIO

namespace NimaIO

/-- Witness for `stitch_placement`: 3 series on a 2×2 grid with one missing
tile, the series-0 plane holding the fixture pixel value 7779. -/
theorem stitch_placement_witness :
    ∃ plane, stitch [[((0 : Int), (0 : Int), (0 : Int))], [(1, 0, 0)],
        [(0, 1, 0)]] 1 1
        (fun s _ _ => if s = 0 then (7779 : Int) else 100 + s) =
          .ok plane ∧
      plane.length = (uniqueY [[((0 : Int), (0 : Int), (0 : Int))],
        [(1, 0, 0)], [(0, 1, 0)]]).length * 1 ∧
      (∀ row ∈ plane, row.length =
        (uniqueX [[((0 : Int), (0 : Int), (0 : Int))], [(1, 0, 0)],
          [(0, 1, 0)]]).length * 1) ∧
      List.Sorted (· ≤ ·) (uniqueY [[((0 : Int), (0 : Int), (0 : Int))],
        [(1, 0, 0)], [(0, 1, 0)]]) ∧
      (uniqueY [[((0 : Int), (0 : Int), (0 : Int))], [(1, 0, 0)],
        [(0, 1, 0)]]).Nodup ∧
      List.Sorted (· ≤ ·) (uniqueX [[((0 : Int), (0 : Int), (0 : Int))],
        [(1, 0, 0)], [(0, 1, 0)]]) ∧
      (uniqueX [[((0 : Int), (0 : Int), (0 : Int))], [(1, 0, 0)],
        [(0, 1, 0)]]).Nodup ∧
      (∀ yt dy xt dx, yt < (uniqueY [[((0 : Int), (0 : Int), (0 : Int))],
          [(1, 0, 0)], [(0, 1, 0)]]).length → dy < 1 →
        xt < (uniqueX [[((0 : Int), (0 : Int), (0 : Int))], [(1, 0, 0)],
          [(0, 1, 0)]]).length → dx < 1 →
        (tileIndexes [[((0 : Int), (0 : Int), (0 : Int))], [(1, 0, 0)],
            [(0, 1, 0)]]
            ((uniqueX [[((0 : Int), (0 : Int), (0 : Int))], [(1, 0, 0)],
              [(0, 1, 0)]]).getD xt 0)
            ((uniqueY [[((0 : Int), (0 : Int), (0 : Int))], [(1, 0, 0)],
              [(0, 1, 0)]]).getD yt 0) = [] →
          (plane.getD (yt * 1 + dy) []).getD (xt * 1 + dx) 0 = 0) ∧
        (∀ i, tileIndexes [[((0 : Int), (0 : Int), (0 : Int))], [(1, 0, 0)],
            [(0, 1, 0)]]
            ((uniqueX [[((0 : Int), (0 : Int), (0 : Int))], [(1, 0, 0)],
              [(0, 1, 0)]]).getD xt 0)
            ((uniqueY [[((0 : Int), (0 : Int), (0 : Int))], [(1, 0, 0)],
              [(0, 1, 0)]]).getD yt 0) = [i] →
          (plane.getD (yt * 1 + dy) []).getD (xt * 1 + dx) 0 =
            if i = 0 then (7779 : Int) else 100 + (i : Int))) :=
  stitch_placement [[((0 : Int), (0 : Int), (0 : Int))], [(1, 0, 0)],
    [(0, 1, 0)]] 1 1 (fun s _ _ => if s = 0 then (7779 : Int) else 100 + s)
    (by decide) (by decide)

end NimaIO

namespace NimaIO

/-! ## `diff` (read.py lines 813-849)
A file as seen by `diff` is its tidied metadata dict plus the pixel planes
reachable through the reader wrapper.  Metadata becomes a record with the
four sizes `diff` iterates over plus the remaining (key, value) entries;
`np.array_equal` on planes becomes list equality.  The Python function
computes `are_equal = are_equal and (md_a == md_b)`, prints a diagnostic on
mismatch, and then REBINDS `are_equal` to the pixel comparison, so the
metadata comparison never reaches the returned value; the embedding keeps
both assignments. -/

/-- The tidied metadata of one file: the series/time/channel/z counts that
`diff` loops over, plus every other metadata entry. -/
structure FileMD where
  sizeS : Nat
  sizeT : Nat
  sizeC : Nat
  sizeZ : Nat
  rest : List (String × String)
deriving DecidableEq

/-- A readable file: metadata plus the plane `wrapper.read` returns for each
`(series, t, c, z)`. -/
structure FileModel where
  md : FileMD
  plane : Nat → Nat → Nat → Nat → List (List Int)

/-- The `all(np.array_equal(...) for s ... for t ... for c ... for z ...)`
comparison of `diff`; all four ranges come from `md_a`. -/
def allPlanesEqual (a b : FileModel) : Bool :=
  (List.range a.md.sizeS).all fun s =>
    (List.range a.md.sizeT).all fun t =>
      (List.range a.md.sizeC).all fun c =>
        (List.range a.md.sizeZ).all fun z =>
          a.plane s t c z == b.plane s t c z

/-- Embedding of `diff` (read.py lines 813-849): the metadata comparison is
computed (and on mismatch only printed) but then overwritten by the plane
comparison, exactly as in the source. -/
def diff (a b : FileModel) : Bool :=
  let are_equal := true && (a.md == b.md)
  let are_equal := allPlanesEqual a b
  are_equal

/-- Two files with identical pixel data but different metadata
(`Format` differs). -/
def fileA : FileModel :=
  ⟨⟨1, 1, 1, 1, [("Format", "OME-TIFF")]⟩, fun _ _ _ _ => [[5]]⟩

/-- Same planes as `fileA`, different metadata. -/
def fileB : FileModel :=
  ⟨⟨1, 1, 1, 1, [("Format", "LIF")]⟩, fun _ _ _ _ => [[5]]⟩

/-- C1: `diff` on two files whose metadata differ but whose planes are all
equal returns `True`: line 839 rebinds `are_equal` to the pixel comparison
alone, so the metadata conjunct of line 832 is discarded, contradicting the
documented "True if the two files are equal". -/
theorem diff_metadata_ignored :
    fileA.md ≠ fileB.md ∧ diff fileA fileB = true := by
  constructor
  · decide
  · rfl

/-! ## `read` / `read2` / `read3` (read.py lines 385-551)
Only the file-existence gate matters for the claim: the filesystem is an
oracle `isfile`, and everything after the gate (JVM start, `Memoizer`,
`setId`, metadata extraction) is collapsed into "at least one backend
call happened". -/

/-- Outcome of a read-entry call. -/
inductive ReadResult where
  | fileNotFound (msg : String)
  | backendRead
deriving DecidableEq

/-- What a read-entry call did: how many backend calls were attempted
before returning/raising, and the outcome. -/
structure ReadTrace where
  backendCalls : Nat
  result : ReadResult
deriving DecidableEq

/-- Embedding of `read` (read.py lines 430-492): `os.path.isfile` is checked
first and `FileNotFoundError` raised before any backend call. -/
def read (isfile : String → Bool) (filepath : String) : ReadTrace :=
  if ¬ isfile filepath then
    ⟨0, .fileNotFound ("File not found: " ++ filepath)⟩
  else ⟨1, .backendRead⟩

/-- Embedding of `read3` (read.py lines 495-551): same existence gate as
`read`. -/
def read3 (isfile : String → Bool) (filepath : String) : ReadTrace :=
  if ¬ isfile filepath then
    ⟨0, .fileNotFound ("File not found: " ++ filepath)⟩
  else ⟨1, .backendRead⟩

/-- Embedding of `read2` (read.py lines 385-427): NO existence check; the
function goes straight to the backend (`Memoizer`, `setId`). -/
def read2 (isfile : String → Bool) (filepath : String) : ReadTrace :=
  ⟨1, .backendRead⟩

/-- C8 counterexample: `read2` on a non-existent path attempts a backend
call and raises no `FileNotFoundError`. -/
theorem read2_no_notfound_check_cx :
    (read2 (fun _ => false) "missing.tif").backendCalls = 1 ∧
    (read2 (fun _ => false) "missing.tif").result ≠
      .fileNotFound ("File not found: " ++ "missing.tif") := by decide

/-- C8 amended: for every non-existent input path, `read` (and `read3`)
raise `FileNotFoundError` immediately with no backend call attempted;
`read2` performs no such check. -/
theorem read_notfound_before_backend (isfile : String → Bool) (fp : String)
    (h : isfile fp = false) :
    read isfile fp = ⟨0, .fileNotFound ("File not found: " ++ fp)⟩ ∧
    read3 isfile fp = ⟨0, .fileNotFound ("File not found: " ++ fp)⟩ := by
  unfold read read3
  rw [h]
  simp

/-- Witness for `read_notfound_before_backend` on an always-empty
filesystem. -/
theorem read_notfound_before_backend_witness :
    read (fun _ => false) "missing.tif" =
      ⟨0, .fileNotFound ("File not found: " ++ "missing.tif")⟩ ∧
    read3 (fun _ => false) "missing.tif" =
      ⟨0, .fileNotFound ("File not found: " ++ "missing.tif")⟩ :=
  read_notfound_before_backend (fun _ => false) "missing.tif" rfl

/-! ## `get_md_dict` diagnostic log lifecycle (read.py lines 1141-1212)
Control-flow model of the per-key loop when a `filepath` is supplied.  The
log file is opened before the loop; each key either succeeds
(`Found`/`None`), raises a backend error caught by `except Exception`
(`Jmiss`, one log line written, loop continues), or raises inside the
`except FoundMetadataError` handler body (e.g. the re-raise in
`convert_value`): such an exception is NOT caught by the sibling handler
and propagates out of the function, skipping the `close()` that only runs
after the loop. -/

/-- Per-key outcome in the `get_md_dict` loop. -/
inductive KeyOutcome where
  | found
  | noneVal
  | jmiss
  | fatal
deriving DecidableEq

/-- State of the diagnostic log when `get_md_dict` returns or raises. -/
structure MdRun where
  logLines : Nat
  logClosed : Bool
  raised : Bool
deriving DecidableEq

/-- The `for k in keys` loop of `get_md_dict`, tracking the log file. -/
def mdLoop : List KeyOutcome → Nat → MdRun
  | [], n => ⟨n, true, false⟩
  | k :: ks, n =>
    match k with
    | .fatal => ⟨n, false, true⟩
    | .jmiss => mdLoop ks (n + 1)
    | _ => mdLoop ks n

/-- Embedding of the log lifecycle of `get_md_dict` with a filepath
supplied: open, loop, close-after-loop. -/
def get_md_dict_run (keys : List KeyOutcome) : MdRun := mdLoop keys 0

/-- C5 counterexample: an unrecoverable fault while handling the second key
leaves the function via an exception and the log handle is NOT closed. -/
theorem get_md_dict_log_cx :
    (get_md_dict_run [.found, .fatal]).logClosed = false ∧
    (get_md_dict_run [.found, .fatal]).raised = true := by decide

lemma mdLoop_no_fatal (keys : List KeyOutcome) (n : Nat)
    (h : KeyOutcome.fatal ∉ keys) :
    (mdLoop keys n).logClosed = true ∧ (mdLoop keys n).raised = false := by
  induction keys generalizing n with
  | nil => exact ⟨rfl, rfl⟩
  | cons k ks ih =>
    simp only [List.mem_cons, not_or] at h
    cases k with
    | fatal => exact absurd rfl h.1
    | jmiss => exact ih (n + 1) h.2
    | found => exact ih n h.2
    | noneVal => exact ih n h.2

lemma mdLoop_fatal (keys : List KeyOutcome) (n : Nat)
    (h : KeyOutcome.fatal ∈ keys) :
    (mdLoop keys n).logClosed = false ∧ (mdLoop keys n).raised = true := by
  induction keys generalizing n with
  | nil => cases h
  | cons k ks ih =>
    cases k with
    | fatal => exact ⟨rfl, rfl⟩
    | jmiss =>
      rcases List.mem_cons.mp h with hc | h2
      · exact absurd hc.symm (by simp)
      · exact ih (n + 1) h2
    | found =>
      rcases List.mem_cons.mp h with hc | h2
      · exact absurd hc.symm (by simp)
      · exact ih n h2
    | noneVal =>
      rcases List.mem_cons.mp h with hc | h2
      · exact absurd hc.symm (by simp)
      · exact ih n h2

/-- C5 amended: the diagnostic log handle is closed before returning on
every run where no unrecoverable fault is raised during enumeration (per-key
recoverable backend faults included); when an unrecoverable fault is raised
the function exits by exception WITHOUT closing the handle. -/
theorem get_md_dict_log_lifecycle (keys : List KeyOutcome) :
    (KeyOutcome.fatal ∉ keys →
      (get_md_dict_run keys).logClosed = true ∧
      (get_md_dict_run keys).raised = false) ∧
    (KeyOutcome.fatal ∈ keys →
      (get_md_dict_run keys).logClosed = false ∧
      (get_md_dict_run keys).raised = true) :=
  ⟨fun h => mdLoop_no_fatal keys 0 h, fun h => mdLoop_fatal keys 0 h⟩

/-- Witness for `get_md_dict_log_lifecycle` on a fault-free enumeration with
one recoverable backend fault. -/
theorem get_md_dict_log_lifecycle_witness :
    (get_md_dict_run [.found, .jmiss, .noneVal]).logClosed = true ∧
    (get_md_dict_run [.found, .jmiss, .noneVal]).raised = false :=
  (get_md_dict_log_lifecycle [.found, .jmiss, .noneVal]).1 (by decide)

end NimaIO
